/- Verification of the curve computation engine of the yard library
   (src/yard/curve.py), a 2D point-series abstraction with trapezoidal
   area integration, two point-reduction (coarsening) strategies, and
   pointwise coordinate transforms, plus the performance-curve builders
   that derive a point series from a sequence of confusion matrices.

   Python floats are modelled as exact rationals (ℚ); every concrete
   input evaluated below uses dyadic values on which Python's binary
   floating point is exact, so the models agree with the source there. -/

import Mathlib

/-- A point of a curve: a pair of coordinates (`Curve.points` holds a
list of 2-tuples). -/
abbrev Point := ℚ × ℚ

namespace Yard

/-- `Curve.auc` (src/yard/curve.py lines 36-46):
`sum((y0+y1) / 2. * (x0-x1) for (x0, y0), (x1, y1) in izip(points, points[1:]))`.
`izip` pairs the list with its tail, stopping at the shorter one. -/
def auc (points : List Point) : ℚ :=
  ((points.zip points.tail).map
    (fun pq => (pq.1.2 + pq.2.2) / 2 * (pq.1.1 - pq.2.1))).sum

/-- `Curve.transform` (lines 191-195):
`self._points = [transformation(*point) for point in self._points]`. -/
def transform (transformation : ℚ → ℚ → Point) (points : List Point) :
    List Point :=
  points.map (fun p => transformation p.1 p.2)

/-- `Curve.transform_x` (lines 197-201):
`self._points = [(transformation(x), y) for x, y in self._points]`. -/
def transform_x (transformation : ℚ → ℚ) (points : List Point) : List Point :=
  points.map (fun p => (transformation p.1, p.2))

/-- `Curve.transform_y` (lines 203-207):
`self._points = [(x, transformation(y)) for x, y in self._points]`. -/
def transform_y (transformation : ℚ → ℚ) (points : List Point) : List Point :=
  points.map (fun p => (p.1, transformation p.2))

@[simp] theorem auc_nil : auc [] = 0 := rfl

@[simp] theorem auc_singleton (p : Point) : auc [p] = 0 := by
  simp [auc]

theorem auc_cons_cons (p q : Point) (rest : List Point) :
    auc (p :: q :: rest) =
      (p.2 + q.2) / 2 * (p.1 - q.1) + auc (q :: rest) := by
  simp [auc]

/-- The trapezoid term between consecutive indexed points, written from the
claim's indexed formulation. -/
def trapTerm (points : List Point) (i : ℕ) : ℚ :=
  ((points.getD i 0).2 + (points.getD (i + 1) 0).2) / 2 *
    ((points.getD i 0).1 - (points.getD (i + 1) 0).1)

theorem auc_eq_sum_trapTerm (points : List Point) :
    auc points = ∑ i ∈ Finset.range (points.length - 1), trapTerm points i := by
  induction points with
  | nil => simp
  | cons p rest ih =>
    cases rest with
    | nil => simp
    | cons q rest' =>
      rw [auc_cons_cons, ih]
      simp only [List.length_cons, Nat.add_sub_cancel]
      rw [Finset.sum_range_succ']
      have hterm : ∀ i, trapTerm (p :: q :: rest') (i + 1) =
          trapTerm (q :: rest') i := by
        intro i
        simp [trapTerm]
      have h0 : trapTerm (p :: q :: rest') 0 = (p.2 + q.2) / 2 * (p.1 - q.1) := by
        simp [trapTerm]
      simp only [hterm, h0]
      ring

/-- C1: for every point series, `auc()` returns the signed trapezoidal sum
over adjacent point pairs in sequence order — for each consecutive pair
((x0,y0), (x1,y1)) it accumulates (y0+y1)/2 * (x0-x1) — and for a series
with fewer than 2 points (empty or one point) it returns 0. -/
theorem auc_signed_trapezoid_and_degenerate :
    (∀ points : List Point,
      auc points = ∑ i ∈ Finset.range (points.length - 1), trapTerm points i) ∧
    auc [] = 0 ∧ (∀ p : Point, auc [p] = 0) :=
  ⟨auc_eq_sum_trapTerm, auc_nil, auc_singleton⟩

/-- C9: `transform_x` / `transform_y` with the identity leave the point
sequence unchanged, and composing `transform_x f` then `transform_x g`
equals a single `transform_x (g ∘ f)` (symmetrically for `transform_y`). -/
theorem transform_xy_id_and_comp :
    (∀ points : List Point, transform_x id points = points) ∧
    (∀ points : List Point, transform_y id points = points) ∧
    (∀ (f g : ℚ → ℚ) (points : List Point),
      transform_x g (transform_x f points) = transform_x (g ∘ f) points) ∧
    (∀ (f g : ℚ → ℚ) (points : List Point),
      transform_y g (transform_y f points) = transform_y (g ∘ f) points) := by
  refine ⟨fun points => ?_, fun points => ?_, fun f g points => ?_,
    fun f g points => ?_⟩ <;>
    simp [transform_x, transform_y, Function.comp]

/-- C10: `transform`, `transform_x` and `transform_y` preserve the number of
points and their order: the i-th point of the result is the mapper applied
to the i-th original point, and no points are added or removed. -/
theorem transform_preserves_length_and_order :
    (∀ (t : ℚ → ℚ → Point) (points : List Point),
      (transform t points).length = points.length ∧
      ∀ i : ℕ, (transform t points)[i]? = (points[i]?).map (fun p => t p.1 p.2)) ∧
    (∀ (t : ℚ → ℚ) (points : List Point),
      (transform_x t points).length = points.length ∧
      ∀ i : ℕ, (transform_x t points)[i]? =
        (points[i]?).map (fun p => (t p.1, p.2))) ∧
    (∀ (t : ℚ → ℚ) (points : List Point),
      (transform_y t points).length = points.length ∧
      ∀ i : ℕ, (transform_y t points)[i]? =
        (points[i]?).map (fun p => (p.1, t p.2))) := by
  refine ⟨fun t points => ⟨?_, fun i => ?_⟩, fun t points => ⟨?_, fun i => ?_⟩,
    fun t points => ⟨?_, fun i => ?_⟩⟩ <;>
    simp [transform, transform_x, transform_y]

theorem auc_on_diagonal (points : List Point) (h : points ≠ [])
    (hline : ∀ p ∈ points, p.2 = p.1) :
    auc points = ((points.head h).1 ^ 2 - (points.getLast h).1 ^ 2) / 2 := by
  induction points with
  | nil => exact absurd rfl h
  | cons p rest ih =>
    cases rest with
    | nil => simp
    | cons q rest' =>
      have hq : q :: rest' ≠ [] := by simp
      rw [auc_cons_cons, ih hq (fun r hr => hline r (List.mem_cons_of_mem p hr))]
      rw [List.getLast_cons hq]
      have hp : p.2 = p.1 := hline p (List.mem_cons_self p _)
      have hq2 : q.2 = q.1 := hline q (List.mem_cons_of_mem p (List.mem_cons_self q _))
      simp only [List.head_cons]
      rw [hp, hq2]
      ring

/-- C8: for every point series whose points lie on the line y = x with
x-coordinates monotonically decreasing from 1.0 to 0.0, `auc()` equals
0.5. -/
theorem auc_no_discrimination_line (points : List Point) (h : points ≠ [])
    (hline : ∀ p ∈ points, p.2 = p.1)
    (hfirst : (points.head h).1 = 1) (hlast : (points.getLast h).1 = 0)
    (_hmono : points.Chain' (fun p q => q.1 < p.1)) :
    auc points = 1 / 2 := by
  rw [auc_on_diagonal points h hline, hfirst, hlast]
  norm_num

/-- Witness for C8 at the concrete two-point diagonal [(1,1), (0,0)]. -/
theorem auc_no_discrimination_line_witness :
    auc [((1 : ℚ), (1 : ℚ)), (0, 0)] = 1 / 2 :=
  auc_no_discrimination_line [(1, 1), (0, 0)] (by simp) (by decide)
    (by decide) (by decide)
    (by norm_num [List.chain'_cons, List.chain'_singleton])

/-- Python exceptions that `Curve.coarsen` can raise: the explicit
`TypeError` for bad mode arguments (lines 67-70), the `ValueError` from the
slice `points[::0]` (line 78), and the `ZeroDivisionError` from
`(n-1) / (k-1.)` when `until=1` (line 85). -/
inductive PyErr where
  | typeError
  | valueError
  | zeroDivisionError
deriving DecidableEq, Repr

/-- Helper for Python list slicing with a positive step k: `c` counts the
elements still to skip before the next kept one. -/
def sliceEveryAux (k : ℕ) : List Point → ℕ → List Point
  | [], _ => []
  | x :: xs, 0 => x :: sliceEveryAux k xs (k - 1)
  | _ :: xs, c + 1 => sliceEveryAux k xs c

/-- Python list slicing `l[::k]` for a positive step k: elements at
positions 0, k, 2k, … -/
def sliceEvery (l : List Point) (k : ℕ) : List Point :=
  sliceEveryAux k l 0

/-- Python list slicing `l[::k]` for any nonzero step k; for a negative
step Python walks the list backwards from the end. The k = 0 case raises
`ValueError` in Python and is guarded by the caller. -/
def pyFullSlice (l : List Point) (k : ℤ) : List Point :=
  if 0 < k then sliceEvery l k.toNat else sliceEvery l.reverse (-k).toNat

/-- Python `int()` applied to a float: truncation toward zero. -/
def pyTrunc (q : ℚ) : ℤ :=
  if 0 ≤ q then ⌊q⌋ else -⌊-q⌋

/-- `Curve.coarsen` (src/yard/curve.py lines 48-88), translated statement by
statement. The result is the final `_points` list paired with the raised
exception, if any; every assignment to `_points` in the source is the last
effect of its branch, so when an exception is raised the state equals the
original list. Mode arguments model the presence of the `every` / `until`
keywords, already coerced by `int()`. The float step `(n-1) / (k-1.)` is
modelled as an exact rational. Indexing uses `getD`: in every reachable
evaluation the index is in range (for k ≥ 2 the probed index
`int(idx*step)` satisfies 0 ≤ idx*step < n-1, and `points[-1]` is taken
only on a nonempty list). -/
def coarsenRun (points : List Point) :
    Option ℤ → Option ℤ → List Point × Option PyErr
  | some _, some _ => (points, some .typeError)
  | none, none => (points, some .typeError)
  | some k, none =>
      if points.isEmpty then (points, none)
      else if k = 0 then (points, some .valueError)
      else
        let sliced := pyFullSlice points k
        if (points.length : ℤ) % k = 0 then (sliced, none)
        else (sliced ++ [points.getLast?.getD 0], none)
  | none, some k =>
      if points.isEmpty then (points, none)
      else if k = 1 then (points, some .zeroDivisionError)
      else
        let n : ℤ := points.length
        let step : ℚ := (n - 1) / (k - 1)
        let result := (List.range (k - 2).toNat).map
          (fun i => points.getD (pyTrunc (((i : ℤ) + 1) * step)).toNat 0)
        (result ++ [points.getLast?.getD 0], none)

theorem sliceEveryAux_getElem (k : ℕ) (hk : 1 ≤ k) :
    ∀ (l : List Point) (c i : ℕ), (sliceEveryAux k l c)[i]? = l[c + i * k]? := by
  intro l
  induction l with
  | nil => intro c i; simp [sliceEveryAux]
  | cons x xs ih =>
    intro c i
    cases c with
    | zero =>
      cases i with
      | zero => simp [sliceEveryAux]
      | succ j =>
        have harith : 0 + (j + 1) * k = (k - 1 + j * k) + 1 := by
          have : (j + 1) * k = j * k + k := by ring
          omega
        rw [sliceEveryAux, List.getElem?_cons_succ, ih (k - 1) j, harith,
          List.getElem?_cons_succ]
    | succ c' =>
      have harith : c' + 1 + i * k = (c' + i * k) + 1 := by omega
      rw [sliceEveryAux, ih c' i, harith, List.getElem?_cons_succ]

theorem sliceEveryAux_length (k : ℕ) (hk : 1 ≤ k) :
    ∀ (l : List Point) (c : ℕ),
      (sliceEveryAux k l c).length = (l.length - c + k - 1) / k := by
  intro l
  induction l with
  | nil =>
    intro c
    rw [sliceEveryAux]
    simp only [List.length_nil]
    rw [show 0 - c + k - 1 = k - 1 by omega, Nat.div_eq_of_lt (by omega)]
  | cons x xs ih =>
    intro c
    cases c with
    | zero =>
      rw [sliceEveryAux]
      simp only [List.length_cons]
      rw [ih (k - 1)]
      rw [show xs.length + 1 - 0 + k - 1 = xs.length + k by omega,
        Nat.add_div_right _ (by omega : 0 < k)]
      rcases Nat.lt_or_ge xs.length (k - 1) with hlt | hge
      · rw [show xs.length - (k - 1) + k - 1 = k - 1 by omega,
          Nat.div_eq_of_lt (by omega), Nat.div_eq_of_lt (by omega : xs.length < k)]
      · rw [show xs.length - (k - 1) + k - 1 = xs.length by omega]
    | succ c' =>
      rw [sliceEveryAux, ih c']
      simp only [List.length_cons]
      congr 1
      omega

theorem sliceEvery_getElem (l : List Point) (k : ℕ) (hk : 1 ≤ k) (i : ℕ) :
    (sliceEvery l k)[i]? = l[i * k]? := by
  rw [sliceEvery, sliceEveryAux_getElem k hk l 0 i, Nat.zero_add]

theorem sliceEvery_length (l : List Point) (k : ℕ) (hk : 1 ≤ k) :
    (sliceEvery l k).length = (l.length + k - 1) / k := by
  rw [sliceEvery, sliceEveryAux_length k hk l 0, Nat.sub_zero]

theorem index_lt_ceil_iff (n k i : ℕ) (hk : 1 ≤ k) :
    i < (n + k - 1) / k ↔ i * k < n := by
  rw [Nat.lt_iff_add_one_le, Nat.le_div_iff_mul_le (by omega : 0 < k)]
  have : (i + 1) * k = i * k + k := by ring
  omega

/-- The every-mode of coarsening as worded by the spec (with the append
condition as the code has it): keep the points at sequence positions
0, k, 2k, …, then append the last original point when n is not divisible
by k. -/
def everyModeSpec (points : List Point) (k : ℕ) : List Point :=
  ((List.range ((points.length + k - 1) / k)).map fun i => points.getD (i * k) 0)
    ++ (if points.length % k = 0 then [] else [points.getLast?.getD 0])

theorem sliceEvery_eq_range_map (l : List Point) (k : ℕ) (hk : 1 ≤ k) :
    sliceEvery l k =
      (List.range ((l.length + k - 1) / k)).map fun i => l.getD (i * k) 0 := by
  apply List.ext_getElem?
  intro i
  rw [sliceEvery_getElem l k hk i, List.getElem?_map]
  rcases Nat.lt_or_ge i ((l.length + k - 1) / k) with hlt | hge
  · have hik : i * k < l.length := (index_lt_ceil_iff l.length k i hk).mp hlt
    rw [List.getElem?_range hlt, List.getElem?_eq_getElem hik]
    simp [List.getD_eq_getElem?_getD, List.getElem?_eq_getElem hik]
  · have hik : l.length ≤ i * k := by
      by_contra hcon
      exact absurd ((index_lt_ceil_iff l.length k i hk).mpr (by omega)) (by omega)
    rw [List.getElem?_eq_none hik, List.getElem?_eq_none (by simpa using hge)]
    simp

theorem coarsenRun_every_pos (points : List Point) (k : ℕ)
    (hne : points ≠ []) (hk : 1 ≤ k) :
    coarsenRun points (some (k : ℤ)) none =
      ((if points.length % k = 0 then sliceEvery points k
        else sliceEvery points k ++ [points.getLast?.getD 0]), none) := by
  have hEmpty : points.isEmpty = false := by
    cases points with
    | nil => exact absurd rfl hne
    | cons a l => rfl
  have hkz : ((k : ℤ) = 0) = False := by
    simp only [Nat.cast_eq_zero, eq_iff_iff, iff_false]
    omega
  have hkpos : (0 : ℤ) < (k : ℤ) := by exact_mod_cast (by omega : 0 < k)
  simp only [coarsenRun, hEmpty, Bool.false_eq_true, if_false, hkz,
    pyFullSlice, if_pos hkpos, Int.toNat_natCast,
    ← Int.natCast_mod, Nat.cast_eq_zero]
  split <;> rfl

/-- C3 counterexample: on the 4-point series [(0,0),(1,1),(2,2),(3,3)] with
every=2 the code keeps [(0,0),(2,2)] — the final retained slice index (2) is
not the last point, yet nothing is appended (4 is divisible by 2), and the
last original point (3,3) is not retained, contrary to "always preserves
both endpoints". -/
theorem coarsen_every_endpoint_counterexample :
    (coarsenRun [((0 : ℚ), (0 : ℚ)), (1, 1), (2, 2), (3, 3)] (some 2) none).1
      = [(0, 0), (2, 2)] ∧
    ((3 : ℚ), (3 : ℚ)) ∉
      (coarsenRun [((0 : ℚ), (0 : ℚ)), (1, 1), (2, 2), (3, 3)] (some 2) none).1 := by
  decide

/-- C3 (amended): for every non-empty point series of n points and k ≥ 1,
coarsen(every=k) raises nothing, keeps the points at sequence positions
0, k, 2k, …, appends the last original point exactly when n is not
divisible by k (possibly duplicating it; when k divides n the last original
point may be dropped), always preserves the first point, and yields a
retained count of ⌈n/k⌉, plus 1 if n is not divisible by k. -/
theorem coarsen_every_amended (points : List Point) (k : ℕ)
    (hne : points ≠ []) (hk : 1 ≤ k) :
    (coarsenRun points (some (k : ℤ)) none).2 = none ∧
    (coarsenRun points (some (k : ℤ)) none).1 = everyModeSpec points k ∧
    ((coarsenRun points (some (k : ℤ)) none).1)[0]? = points[0]? ∧
    ((coarsenRun points (some (k : ℤ)) none).1).length =
      (points.length + k - 1) / k +
        (if points.length % k = 0 then 0 else 1) := by
  rw [coarsenRun_every_pos points k hne hk]
  have hslice0 : 0 < (sliceEvery points k).length := by
    rw [sliceEvery_length points k hk]
    have hn : 0 < points.length := List.length_pos.mpr hne
    exact (index_lt_ceil_iff points.length k 0 hk).mpr (by omega)
  refine ⟨rfl, ?_, ?_, ?_⟩
  · rw [everyModeSpec, ← sliceEvery_eq_range_map points k hk]
    split <;> simp
  · have h0 : (sliceEvery points k)[0]? = points[0]? := by
      rw [sliceEvery_getElem points k hk 0, Nat.zero_mul]
    split
    · exact h0
    · rw [List.getElem?_append_left hslice0]
      exact h0
  · split <;>
      simp [List.length_append, sliceEvery_length points k hk]

/-- Witness for C3 (amended) at the concrete series [(1,2),(3,4),(5,6)]
with k = 2. -/
theorem coarsen_every_amended_witness :
    (coarsenRun [((1 : ℚ), (2 : ℚ)), (3, 4), (5, 6)] (some (2 : ℕ)) none).2 = none ∧
    (coarsenRun [((1 : ℚ), (2 : ℚ)), (3, 4), (5, 6)] (some (2 : ℕ)) none).1
      = everyModeSpec [((1 : ℚ), (2 : ℚ)), (3, 4), (5, 6)] 2 ∧
    ((coarsenRun [((1 : ℚ), (2 : ℚ)), (3, 4), (5, 6)] (some (2 : ℕ)) none).1)[0]?
      = [((1 : ℚ), (2 : ℚ)), (3, 4), (5, 6)][0]? ∧
    ((coarsenRun [((1 : ℚ), (2 : ℚ)), (3, 4), (5, 6)] (some (2 : ℕ)) none).1).length
      = ([((1 : ℚ), (2 : ℚ)), (3, 4), (5, 6)].length + 2 - 1) / 2 +
        (if [((1 : ℚ), (2 : ℚ)), (3, 4), (5, 6)].length % 2 = 0 then 0 else 1) :=
  coarsen_every_amended [((1 : ℚ), (2 : ℚ)), (3, 4), (5, 6)] 2
    (by simp) (by omega)

/-- C5: a `coarsen` call that raises leaves the point sequence exactly as
it was: every `_points` assignment in the source is the final effect of its
branch, and each exception (bad mode arguments, `points[::0]`, or the
zero-division for until=1) is raised before any assignment. -/
theorem coarsen_failure_leaves_series_unchanged (points : List Point)
    (oe ou : Option ℤ) (h : ((coarsenRun points oe ou).2).isSome = true) :
    (coarsenRun points oe ou).1 = points := by
  match oe, ou with
  | some _, some _ => rfl
  | none, none => rfl
  | some k, none =>
    by_cases he : points.isEmpty
    · simp [coarsenRun, he]
    · by_cases hz : k = 0
      · simp [coarsenRun, he, hz]
      · exfalso
        simp [coarsenRun, he, hz] at h
        split at h <;> simp at h
  | none, some k =>
    by_cases he : points.isEmpty
    · simp [coarsenRun, he]
    · by_cases hz : k = 1
      · simp [coarsenRun, he, hz]
      · exfalso
        simp [coarsenRun, he, hz] at h

/-- Witness for C5: coarsen(every=0) on the one-point series [(1,1)] raises
(Python's ValueError for a zero slice step) and the series is unchanged. -/
theorem coarsen_failure_leaves_series_unchanged_witness :
    (coarsenRun [((1 : ℚ), (1 : ℚ))] (some 0) none).1 = [((1 : ℚ), (1 : ℚ))] :=
  coarsen_failure_leaves_series_unchanged [((1 : ℚ), (1 : ℚ))] (some 0) none
    (by decide)

/-- C6: `coarsen` raises its invalid-argument error (the `TypeError` of
lines 67-70, the spec's `InvalidArgumentError`) if and only if it is
invoked with both of its two modes or with neither; with exactly one mode
any failure is of a different kind (`ValueError`, `ZeroDivisionError`). -/
theorem coarsen_typeError_iff_both_or_neither (points : List Point)
    (oe ou : Option ℤ) :
    (coarsenRun points oe ou).2 = some PyErr.typeError ↔
      (oe.isSome = true ∧ ou.isSome = true) ∨ (oe = none ∧ ou = none) := by
  match oe, ou with
  | some a, some b => simp [coarsenRun]
  | none, none => simp [coarsenRun]
  | some k, none =>
    simp only [coarsenRun, Option.isSome_some, Option.isSome_none,
      Bool.false_eq_true, and_false, and_true, false_and, or_false,
      reduceCtorEq, iff_false]
    split
    · simp
    · split
      · simp
      · split <;> simp
  | none, some k =>
    simp only [coarsenRun, Option.isSome_some, Option.isSome_none,
      Bool.false_eq_true, false_and, and_false, or_false, reduceCtorEq,
      false_or, iff_false]
    split
    · simp
    · split
      · simp
      · simp

/-- C7: on the empty series, `coarsen` invoked with exactly one mode — any
every=k or until=k — raises nothing and leaves the series unchanged. -/
theorem coarsen_empty_noop (k : ℤ) :
    coarsenRun [] (some k) none = ([], none) ∧
    coarsenRun [] none (some k) = ([], none) :=
  ⟨rfl, rfl⟩

/-- C2: evaluation of the until-mode at its failing inputs. On the 4-point
series [(0,0),(1,1),(2,2),(3,3)], coarsen(until=3) yields the 2 points
[(1,1),(3,3)] — k-1 points, not k, and the first point is dropped — and on
the 3-point series [(0,0),(1,1),(2,2)], coarsen(until=5) changes the series
to 4 points instead of leaving it unchanged, although n < k. (In both runs
the float step and the probed products are dyadic, so Python's float
arithmetic is exact and agrees with this rational model.) -/
theorem coarsen_until_bug_eval :
    (coarsenRun [((0 : ℚ), (0 : ℚ)), (1, 1), (2, 2), (3, 3)] none (some 3)).1
      = [(1, 1), (3, 3)] ∧
    (coarsenRun [((0 : ℚ), (0 : ℚ)), (1, 1), (2, 2)] none (some 5)).1
      = [(0, 0), (1, 1), (1, 1), (2, 2)] := by
  constructor <;>
    norm_num [coarsenRun, pyTrunc, List.range_succ,
      show Int.toNat 3 = 3 from rfl]

/-- Modelled from the spec: `yard.data.BinaryConfusionMatrix` is not under
src/; per the spec's interface boundary a confusion-matrix snapshot answers
`tpr()`, `fpr()`, `precision()`, `recall()`, `fdp()` as real values. -/
structure BinaryConfusionMatrix where
  tpr : ℚ
  fpr : ℚ
  precision : ℚ
  «recall» : ℚ
  fdp : ℚ
deriving DecidableEq

/-- The classes declared in src/yard/curve.py. -/
inductive CurveClass where
  | curve
  | binaryClassifierPerformanceCurve
  | rocCurve
  | precisionRecallCurve
  | accumulationCurve
  | crocCurve
deriving DecidableEq

/-- The proper ancestors of each class, read off the `class C(B)` headers of
src/yard/curve.py: `Curve(object)`,
`BinaryClassifierPerformanceCurve(Curve)`, and the four variants each
extending `BinaryClassifierPerformanceCurve`. -/
def properAncestors : CurveClass → List CurveClass
  | .curve => []
  | .binaryClassifierPerformanceCurve => [.curve]
  | .rocCurve => [.binaryClassifierPerformanceCurve, .curve]
  | .precisionRecallCurve => [.binaryClassifierPerformanceCurve, .curve]
  | .accumulationCurve => [.binaryClassifierPerformanceCurve, .curve]
  | .crocCurve => [.binaryClassifierPerformanceCurve, .curve]

/-- Python's `issubclass`, reflexive on the hierarchy above. -/
def isSubclassOf (c d : CurveClass) : Bool :=
  c = d || d ∈ properAncestors c

/-- Python 2's `super(target, self)` bound-object check: the instance's
class must be a subclass of `target`, otherwise a `TypeError`
(`super(type, obj): obj must be an instance or subtype of type`) is raised
before anything else runs. -/
def superCheck (target selfClass : CurveClass) : Except PyErr Unit :=
  if isSubclassOf selfClass target then .ok () else .error .typeError

/-- `BinaryClassifierPerformanceCurve._calculate_points` (lines 249-253):
`[(x_func(mat), y_func(mat)) for _, mat in self._data.iter_confusion_matrices()]`.
The dataset's `iter_confusion_matrices` lives in yard.data, which is not
under src/; modelled from the spec as yielding one confusion-matrix
snapshot per threshold, in source order. -/
def calculatePoints (matrices : List BinaryConfusionMatrix)
    (x_func y_func : BinaryConfusionMatrix → ℚ) : List Point :=
  matrices.map (fun mat => (x_func mat, y_func mat))

/-- `AccumulationCurve.__init__` (lines 395-406): the source executes
`super(PrecisionRecallCurve, self).__init__(data, BinaryConfusionMatrix.fdp,
BinaryConfusionMatrix.tpr)` with `self` an `AccumulationCurve` instance, so
the Python 2 `super` check runs first; only if it passed would the
superclass constructor compute the points from the fdp/tpr metric pair
(the callability checks of lines 242-245 always pass for these bound
metric accessors). -/
def accumulationCurveInit (matrices : List BinaryConfusionMatrix) :
    Except PyErr (List Point) :=
  match superCheck .precisionRecallCurve .accumulationCurve with
  | .error e => .error e
  | .ok _ => .ok (calculatePoints matrices
      BinaryConfusionMatrix.fdp BinaryConfusionMatrix.tpr)

/-- C4 fails on the code: `AccumulationCurve` is not a subclass of
`PrecisionRecallCurve` (both extend `BinaryClassifierPerformanceCurve`), so
the `super(PrecisionRecallCurve, self)` call of line 405 raises `TypeError`
and construction never succeeds — evaluated here at a concrete two-matrix
dataset, and shown for every dataset. -/
theorem accumulation_init_always_raises :
    accumulationCurveInit
      [⟨1, 0, 1, 1, 0⟩, ⟨1, 1, 1/2, 1, 1/2⟩] = .error PyErr.typeError ∧
    isSubclassOf .accumulationCurve .precisionRecallCurve = false ∧
    ∀ matrices : List BinaryConfusionMatrix,
      accumulationCurveInit matrices = .error PyErr.typeError := by
  refine ⟨rfl, rfl, fun matrices => rfl⟩
